import Mathlib

/-!
# Verification of the `bitcoin-analysis` UTXO validation engine

This file gives a shallow embedding, in Lean 4, of the validation engine of
the `bitcoin-analysis` repository (`data_validator.py`), and proves or refutes
the claims of its natural-language specification.

The three pandas dataframes (`tx_df`, `in_df`, `out_df`) are embedded as lists
of records, in row order.  Python's `set` for the UTXO ids is embedded as a
`Finset Int`; `set.remove` (which raises `KeyError` on a missing element), the
positional lookups `.iloc[0]` (which raise `IndexError` on an empty selection)
and `inputs.index[0]` are embedded with `Option`, `none` marking the Python
exception.  `validate_data` iterates `self.tx_df['id']` while dropping rows in
place; in pandas the iterated series is a snapshot taken when the loop starts,
so the main pass is embedded as a fold over the list of transaction ids
present after the coinbase pre-pass.

The mutable fields of the Python class (`utxo`, the six category lists,
`n_invalid`) are *class attributes*; the set and the lists are therefore
shared between successive `DataValidator` instances within one process, while
`n_invalid` (an integer, rebound by `+=`) is not.  `carriedState` embeds the
state a second instance actually starts from.
-/

/-- Rejection categories of the validator. -/
inductive Reason where
  | notInUtxo
  | invalidPk
  | negDestPk
  | negOutput
  | notEnoughValue
  | invalidCoinbase
  deriving DecidableEq, Repr

/-- A row of `tx_df`: columns `id`, `block_id`. -/
structure Transaction where
  id : Int
  block_id : Int
  deriving DecidableEq, Repr

/-- A row of `in_df`: columns `tx_id` (row[1]), `sig_id` (row[2]),
`out_id` (row[3]). -/
structure Input where
  tx_id : Int
  sig_id : Int
  out_id : Int
  deriving DecidableEq, Repr

/-- A row of `out_df`: columns `id`, `tx_id`, `pk_id`, `value`. -/
structure Output where
  id : Int
  tx_id : Int
  pk_id : Int
  value : Int
  deriving DecidableEq, Repr

/-- The three ledger relations held by a `DataValidator`. -/
structure Relations where
  tx_df : List Transaction
  in_df : List Input
  out_df : List Output
  deriving DecidableEq, Repr

/-- The mutable analytics state of a `DataValidator`:
the UTXO id set, the running invalid counter and the six category id lists. -/
structure VState where
  utxo : Finset Int
  n_invalid : Nat
  not_in_utxo : List Int
  neg_dest_pk : List Int
  invalid_pk : List Int
  neg_output : List Int
  not_enough_value : List Int
  invalid_coinbase : List Int
  deriving DecidableEq

/-- The constant `MINING_REWARD = 5_000_000_000` (Satoshi). -/
def MINING_REWARD : Int := 5000000000

/-- The state of a validator in a fresh Python process: empty set, empty
lists, zero counter. -/
def initState : VState := ⟨∅, 0, [], [], [], [], [], []⟩

/-- The state a *second* `DataValidator` instance starts from in the same
process: the class-level `set` and `list` objects carry over unchanged, while
`n_invalid` restarts from the class attribute `0` (integer `+=` rebinds an
instance attribute instead of mutating the class one). -/
def carriedState (s : VState) : VState := { s with n_invalid := 0 }

/-- The lookup `self.out_df[self.out_df['id'] == oid] ... .iloc[0]`: the first row of
`out_df` whose `id` column equals `oid`; `none` embeds the `IndexError` raised
when the selection is empty. -/
def lookupOutput (out_df : List Output) (oid : Int) : Option Output :=
  out_df.find? (fun o => o.id == oid)

/-- The destination-validity scan of `is_valid`:
`dest_outputs = self.out_df[self.out_df['tx_id'] == row[1]]['pk_id']`, and the
check `pk <= 0 and pk != -1` on each of them. -/
def destBad (out_df : List Output) (t : Int) : Bool :=
  (out_df.filter (fun o => o.tx_id == t)).any
    (fun o => o.pk_id ≤ 0 && o.pk_id != -1)

/-- The per-input loop of `is_valid` (rules 1–3): membership in the UTXO set,
signer/recipient key match, destination validity; stops at the first failing
check.  `some (some r)` is a rejection with reason `r`, `some none` means all
inputs passed, `none` embeds the `IndexError` of the `.iloc[0]` ownership
lookup. -/
def scanInputs (utxo : Finset Int) (out_df : List Output) :
    List Input → Option (Option Reason)
  | [] => some none
  | i :: rest =>
    if i.out_id ∉ utxo then some (some .notInUtxo)
    else
      match lookupOutput out_df i.out_id with
      | none => none
      | some o =>
        if i.sig_id ≠ o.pk_id then some (some .invalidPk)
        else if destBad out_df i.tx_id then some (some .negDestPk)
        else scanInputs utxo out_df rest

/-- The accumulator `tot_input` of `is_valid`: the sum of the `value` of the first `out_df`
row matching each input's `out_id`; `none` embeds the `IndexError` of a
missing row. -/
def totInput (out_df : List Output) : List Input → Option Int
  | [] => some 0
  | i :: rest =>
    match lookupOutput out_df i.out_id with
    | none => none
    | some o => (totInput out_df rest).map (fun s => o.value + s)

/-- The accumulator `tot_output` of `is_valid` when no negative value interrupts the loop. -/
def totOutput (outputs : List Output) : Int :=
  (outputs.map (fun o => o.value)).sum

/-- The negative-value test of the output loop of `is_valid`. -/
def hasNegOutput (outputs : List Output) : Bool :=
  outputs.any (fun o => o.value < 0)

/-- The method `DataValidator.is_valid`, with the state mutations factored out:
`some none` is Python `True` (accept), `some (some r)` is Python `False`
after recording reason `r`, `none` embeds an uncaught `IndexError`. -/
def is_valid (utxo : Finset Int) (out_df : List Output)
    (inputs : List Input) (outputs : List Output) : Option (Option Reason) :=
  match scanInputs utxo out_df inputs with
  | none => none
  | some (some r) => some (some r)
  | some none =>
    match totInput out_df inputs with
    | none => none
    | some tot_input =>
      if ¬ (inputs.map (fun i => i.out_id)).Nodup then some (some .notInUtxo)
      else if hasNegOutput outputs then some (some .negOutput)
      else if tot_input < totOutput outputs then some (some .notEnoughValue)
      else some none

/-- The method `DataValidator.drop_transaction`: delete from all three relations every
row whose (transaction) id equals `t`. -/
def drop_transaction (r : Relations) (t : Int) : Relations :=
  { tx_df := r.tx_df.filter (fun x => x.id != t),
    in_df := r.in_df.filter (fun i => i.tx_id != t),
    out_df := r.out_df.filter (fun o => o.tx_id != t) }

/-- Recording a rejection: `n_invalid += 1` and append `t` to the category
list of `reason` (done inside `is_valid` for the six data rules, and inline
in `validate_data` for `InvalidCoinbase`). -/
def recordReject (s : VState) (t : Int) : Reason → VState
  | .notInUtxo =>
      { s with n_invalid := s.n_invalid + 1, not_in_utxo := s.not_in_utxo ++ [t] }
  | .invalidPk =>
      { s with n_invalid := s.n_invalid + 1, invalid_pk := s.invalid_pk ++ [t] }
  | .negDestPk =>
      { s with n_invalid := s.n_invalid + 1, neg_dest_pk := s.neg_dest_pk ++ [t] }
  | .negOutput =>
      { s with n_invalid := s.n_invalid + 1, neg_output := s.neg_output ++ [t] }
  | .notEnoughValue =>
      { s with n_invalid := s.n_invalid + 1,
               not_enough_value := s.not_enough_value ++ [t] }
  | .invalidCoinbase =>
      { s with n_invalid := s.n_invalid + 1,
               invalid_coinbase := s.invalid_coinbase ++ [t] }

/-- Insertion sort step on `Int`, ascending. -/
def insertSorted (x : Int) : List Int → List Int
  | [] => [x]
  | y :: ys => if x ≤ y then x :: y :: ys else y :: insertSorted x ys

/-- Ascending sort of a list of ids (pandas `groupby` yields its groups in
ascending key order). -/
def sortInts (l : List Int) : List Int := l.foldr insertSorted []

/-- The summed `value` of all `out_df` rows of transaction `t` (one group of
`groupby('tx_id')['value'].sum()`). -/
def txOutputSum (out_df : List Output) (t : Int) : Int :=
  ((out_df.filter (fun o => o.tx_id == t)).map (fun o => o.value)).sum

/-- The group keys of the coinbase pre-pass:
`coinbase_tx = in_df[in_df['sig_id'] == 0]['tx_id']` and then the `tx_id`
groups of `out_df[out_df['tx_id'].isin(coinbase_tx)]`, in ascending order.
A transaction with no `out_df` row yields no group. -/
def prepassKeys (r : Relations) : List Int :=
  let coinbase_tx := (r.in_df.filter (fun i => i.sig_id == 0)).map
    (fun i => i.tx_id)
  sortInts (((r.out_df.filter (fun o => coinbase_tx.contains o.tx_id)).map
    (fun o => o.tx_id)).dedup)

/-- The coinbase pre-pass of `validate_data`: for each group key (computed
once, before any drop), reject and drop the transaction when its summed
output value is below `MINING_REWARD`.  The sums are taken on the initial
`out_df` (the grouped series is built before the loop). -/
def prepass (r : Relations) (s : VState) : Relations × VState :=
  (prepassKeys r).foldl
    (fun rs t =>
      if txOutputSum r.out_df t < MINING_REWARD then
        (drop_transaction rs.1 t, recordReject rs.2 t .invalidCoinbase)
      else rs)
    (r, s)

/-- The mutation `self.utxo.add` folded over a list of ids. -/
def insertAll (u : Finset Int) : List Int → Finset Int
  | [] => u
  | x :: xs => insertAll (insert x u) xs

/-- The mutation `self.utxo.remove` folded over a list of ids: `none` embeds the
`KeyError` raised when an id is not present. -/
def removeAll (u : Finset Int) : List Int → Option (Finset Int)
  | [] => some u
  | x :: xs => if x ∈ u then removeAll (u.erase x) xs else none

/-- One iteration of the main pass of `validate_data` on transaction id `t`:
filter the current inputs and outputs of `t`, branch on the coinbase sentinel
of the first input (`none` embeds the `IndexError` when `t` has no input row),
otherwise classify with `is_valid` and either update the UTXO set or drop the
transaction. -/
def step (rs : Relations × VState) (t : Int) : Option (Relations × VState) :=
  let inputs := rs.1.in_df.filter (fun i => i.tx_id == t)
  let outputs := rs.1.out_df.filter (fun o => o.tx_id == t)
  match inputs.head? with
  | none => none
  | some first =>
    if first.sig_id == 0 && first.out_id == -1 then
      some (rs.1,
        { rs.2 with utxo := insertAll rs.2.utxo (outputs.map (fun o => o.id)) })
    else
      match is_valid rs.2.utxo rs.1.out_df inputs outputs with
      | none => none
      | some none =>
        match removeAll rs.2.utxo (inputs.map (fun i => i.out_id)) with
        | none => none
        | some u =>
          some (rs.1,
            { rs.2 with utxo := insertAll u (outputs.map (fun o => o.id)) })
      | some (some reason) =>
        some (drop_transaction rs.1 t, recordReject rs.2 t reason)

/-- The main ordered pass, folded over the snapshot of transaction ids. -/
def mainPass (rs : Relations × VState) : List Int → Option (Relations × VState)
  | [] => some rs
  | t :: ts =>
    match step rs t with
    | none => none
    | some rs2 => mainPass rs2 ts

/-- The method `DataValidator.validate_data` (without the final file writes): the
coinbase pre-pass followed by the main pass over the snapshot of the ids of
the transactions that survived the pre-pass.  `none` embeds an uncaught
Python exception. -/
def validate_data (r : Relations) (s : VState) : Option (Relations × VState) :=
  let rs := prepass r s
  mainPass rs (rs.1.tx_df.map (fun x => x.id))

/-- All rejected transaction ids recorded in a state, across the six
category lists. -/
def allRejects (s : VState) : List Int :=
  s.not_in_utxo ++ s.neg_dest_pk ++ s.invalid_pk ++ s.neg_output ++
    s.not_enough_value ++ s.invalid_coinbase

/-- Every id in the UTXO set is the id of some row of `out_df`. -/
def UtxoCovered (utxo : Finset Int) (out_df : List Output) : Prop :=
  ∀ a ∈ utxo, ∃ o ∈ out_df, o.id = a

/-- The transaction ids rejected by the coinbase pre-pass: the group keys
whose summed output value is below the reward, in group (ascending key)
order. -/
def prepassRejected (r : Relations) : List Int :=
  (prepassKeys r).filter (fun t => txOutputSum r.out_df t < MINING_REWARD)

/-- Modelled from the spec, rule 6 wording: the total referenced input value,
each referenced output's value looked up in `out_df` (taken as `0` when the
row is absent; under the totality hypothesis of the refinement theorem this
never happens). -/
def specTotInput (out_df : List Output) (inputs : List Input) : Int :=
  (inputs.map
    (fun i => ((lookupOutput out_df i.out_id).map (fun o => o.value)).getD 0)).sum

/-- Modelled from the spec, rules 1–3 for one input, in the spec's fixed
order: each pair is the outcome of a check (`true` = pass) with, on `false`,
the reason the spec assigns to it. -/
def specInputChecks (utxo : Finset Int) (out_df : List Output) (i : Input) :
    List (Bool × Reason) :=
  [(decide (i.out_id ∈ utxo), Reason.notInUtxo),
   (((lookupOutput out_df i.out_id).map
      (fun o => decide (i.sig_id = o.pk_id))).getD true, Reason.invalidPk),
   (!destBad out_df i.tx_id, Reason.negDestPk)]

/-- Modelled from the spec, section 4.2: the full check sequence of the six
rules in the spec's fixed evaluation order — rules 1–3 per input in record
order, then rule 4 (internal double-spend, bucketed `NotInUtxo`), rule 5
(non-negative outputs) and rule 6 (value conservation). -/
def specRuleSeq (utxo : Finset Int) (out_df : List Output)
    (inputs : List Input) (outputs : List Output) : List (Bool × Reason) :=
  (inputs.map (specInputChecks utxo out_df)).flatten
  ++ [(decide ((inputs.map (fun i => i.out_id)).Nodup), Reason.notInUtxo),
      (!hasNegOutput outputs, Reason.negOutput),
      (decide (totOutput outputs ≤ specTotInput out_df inputs), Reason.notEnoughValue)]

/-- Modelled from the spec: the reason of the first failing check of a
check sequence (`none` when every check passes: accept). -/
def specFirstReason (checks : List (Bool × Reason)) : Option Reason :=
  (checks.find? (fun c => !c.1)).map (fun c => c.2)

/-- Ghost instrumentation for the UTXO-conservation claim: the ids ever
inserted into and ever removed from the UTXO set, and the ids of the
transactions accepted so far, in order. -/
structure Ghost where
  inserted : Finset Int
  removed : Finset Int
  accepted : List Int
  deriving DecidableEq

/-- The main-pass iteration instrumented with the `Ghost` record; its first
two components compute exactly `step`. -/
def gstep (rsg : Relations × VState × Ghost) (t : Int) :
    Option (Relations × VState × Ghost) :=
  let r := rsg.1
  let s := rsg.2.1
  let g := rsg.2.2
  let inputs := r.in_df.filter (fun i => i.tx_id == t)
  let outputs := r.out_df.filter (fun o => o.tx_id == t)
  match inputs.head? with
  | none => none
  | some first =>
    if first.sig_id == 0 && first.out_id == -1 then
      some (r,
        { s with utxo := insertAll s.utxo (outputs.map (fun o => o.id)) },
        { g with
            inserted := g.inserted ∪ (outputs.map (fun o => o.id)).toFinset,
            accepted := g.accepted ++ [t] })
    else
      match is_valid s.utxo r.out_df inputs outputs with
      | none => none
      | some none =>
        match removeAll s.utxo (inputs.map (fun i => i.out_id)) with
        | none => none
        | some u =>
          some (r,
            { s with utxo := insertAll u (outputs.map (fun o => o.id)) },
            { g with
                inserted := g.inserted ∪ (outputs.map (fun o => o.id)).toFinset,
                removed := g.removed ∪ (inputs.map (fun i => i.out_id)).toFinset,
                accepted := g.accepted ++ [t] })
      | some (some reason) =>
        some (drop_transaction r t, recordReject s t reason, g)

/-- The main pass instrumented with the `Ghost` record. -/
def gmainPass (rsg : Relations × VState × Ghost) :
    List Int → Option (Relations × VState × Ghost)
  | [] => some rsg
  | t :: ts =>
    match gstep rsg t with
    | none => none
    | some rsg2 => gmainPass rsg2 ts

/-- A fresh run of `validate_data`, instrumented with the `Ghost` record. -/
def ghost_validate (r : Relations) : Option (Relations × VState × Ghost) :=
  let rs := prepass r initState
  gmainPass (rs.1, rs.2, ⟨∅, ∅, []⟩) (rs.1.tx_df.map (fun x => x.id))

/-- The UTXO replay invariant, relative to the list `ts` of transaction ids
still to be processed: the UTXO set equals the inserted ids minus the removed
ids, every removed id was inserted, every inserted id is the id of a current
`out_df` row belonging to an accepted transaction, no accepted transaction is
still pending, and the current output ids are distinct. -/
def GhostInv (ts : List Int) (r : Relations) (s : VState) (g : Ghost) : Prop :=
  s.utxo = g.inserted \ g.removed
  ∧ g.removed ⊆ g.inserted
  ∧ (∀ a ∈ g.inserted, ∃ o ∈ r.out_df, o.id = a ∧ o.tx_id ∈ g.accepted)
  ∧ (∀ u ∈ g.accepted, u ∉ ts)
  ∧ (r.out_df.map (fun o => o.id)).Nodup

/-- The rejection-bookkeeping invariant, relative to the pending ids `ts`:
the recorded rejected ids are pairwise distinct, no surviving row of any of
the three relations refers to a rejected transaction, and no pending id has
been rejected yet. -/
def RejectInv (ts : List Int) (r : Relations) (s : VState) : Prop :=
  (allRejects s).Nodup
  ∧ (∀ x ∈ r.tx_df, x.id ∉ allRejects s)
  ∧ (∀ i ∈ r.in_df, i.tx_id ∉ allRejects s)
  ∧ (∀ o ∈ r.out_df, o.tx_id ∉ allRejects s)
  ∧ (∀ t ∈ ts, t ∉ allRejects s)

/-- Every id of the UTXO set is the id of a current `out_df` row of a
transaction that is not still pending. -/
def CoveredPending (ts : List Int) (r : Relations) (s : VState) : Prop :=
  ∀ a ∈ s.utxo, ∃ o ∈ r.out_df, o.id = a ∧ o.tx_id ∉ ts

/-- Every pending transaction has at least one input row. -/
def InputsPresent (ts : List Int) (r : Relations) : Prop :=
  ∀ t ∈ ts, r.in_df.filter (fun i => i.tx_id == t) ≠ []

/-- Counterexample fixture: transaction 1's first input has a *non-zero*
signer key (7); its second input has signer key 0; its single output is
worth 4,000,000,000 < `MINING_REWARD`. -/
def R3 : Relations :=
  ⟨[⟨1, 1⟩], [⟨1, 7, 3⟩, ⟨1, 0, 4⟩], [⟨10, 1, 1, 4000000000⟩]⟩

/-- Counterexample fixture: transaction 1 is a coinbase transaction
(single input with signer key 0 and spent-output id −1) with *no* outputs. -/
def R4 : Relations := ⟨[⟨1, 1⟩], [⟨1, 0, -1⟩], []⟩

/-- Counterexample fixture: an orphan input row whose `tx_id` (999) matches
no row of the (empty) transactions relation. -/
def R8 : Relations := ⟨[], [⟨999, 1, 5⟩], []⟩

/-- Failing-input fixture for the determinism claim: a single transfer
transaction spending an output id (7) that is in no UTXO set. -/
def R9 : Relations := ⟨[⟨1, 1⟩], [⟨1, 5, 7⟩], []⟩

/-- The validator state after a first fresh run on `R9`. -/
def s1C9 : VState := ⟨∅, 1, [1], [], [], [], [], []⟩

/-- The validator state after a second run on `R9` by a second
`DataValidator` instance of the same process. -/
def s2C9 : VState := ⟨∅, 1, [1, 1], [], [], [], [], []⟩

/-- Witness fixture: an accepted-transfer scenario — a coinbase transaction
(id 1) creating output 10 worth exactly the reward, then a transfer
transaction (id 2) spending it into output 11 worth 900. -/
def RE : Relations :=
  ⟨[⟨1, 1⟩, ⟨2, 1⟩], [⟨1, 0, -1⟩, ⟨2, 9, 10⟩],
   [⟨10, 1, 9, 5000000000⟩, ⟨11, 2, 3, 900⟩]⟩

/-- The validator state after a fresh run on `RE`: output 10 was spent,
output 11 is unspent, nothing was rejected. -/
def sE : VState := ⟨{11}, 0, [], [], [], [], [], []⟩

/-! ## Basic lemmas about the classifier pieces -/

theorem scan_mem_utxo {utxo : Finset Int} {out_df : List Output}
    {inputs : List Input} (h : scanInputs utxo out_df inputs = some none) :
    ∀ i ∈ inputs, i.out_id ∈ utxo := by
  induction inputs with
  | nil => intro i hi; simp at hi
  | cons j rest ih =>
    rw [scanInputs] at h
    split at h
    · simp at h
    · rename_i hmem
      rw [not_not] at hmem
      split at h
      · simp at h
      · split at h
        · simp at h
        · split at h
          · simp at h
          · intro i hi
            rcases List.mem_cons.mp hi with rfl | hi
            · exact hmem
            · exact ih h i hi

theorem scan_lookup_isSome {utxo : Finset Int} {out_df : List Output}
    {inputs : List Input} (h : scanInputs utxo out_df inputs = some none) :
    ∀ i ∈ inputs, (lookupOutput out_df i.out_id).isSome := by
  induction inputs with
  | nil => intro i hi; simp at hi
  | cons j rest ih =>
    rw [scanInputs] at h
    split at h
    · simp at h
    · split at h
      · simp at h
      · rename_i o ho
        split at h
        · simp at h
        · split at h
          · simp at h
          · intro i hi
            rcases List.mem_cons.mp hi with rfl | hi
            · rw [ho]; rfl
            · exact ih h i hi

theorem totInput_isSome {out_df : List Output} {inputs : List Input}
    (h : ∀ i ∈ inputs, (lookupOutput out_df i.out_id).isSome) :
    (totInput out_df inputs).isSome := by
  induction inputs with
  | nil => simp [totInput]
  | cons j rest ih =>
    rw [totInput]
    obtain ⟨o, ho⟩ := Option.isSome_iff_exists.mp (h j (by simp))
    rw [ho]
    obtain ⟨t, ht⟩ := Option.isSome_iff_exists.mp
      (ih (fun i hi => h i (List.mem_cons_of_mem _ hi)))
    simp [ht]

theorem totInput_eq_spec {out_df : List Output} {inputs : List Input}
    (h : ∀ i ∈ inputs, (lookupOutput out_df i.out_id).isSome) :
    totInput out_df inputs = some (specTotInput out_df inputs) := by
  induction inputs with
  | nil => simp [totInput, specTotInput]
  | cons j rest ih =>
    rw [totInput]
    obtain ⟨o, ho⟩ := Option.isSome_iff_exists.mp (h j (by simp))
    rw [ho, ih (fun i hi => h i (List.mem_cons_of_mem _ hi))]
    simp [specTotInput, ho]

theorem removeAll_isSome {u : Finset Int} {l : List Int}
    (hmem : ∀ x ∈ l, x ∈ u) (hnd : l.Nodup) : (removeAll u l).isSome := by
  induction l generalizing u with
  | nil => simp [removeAll]
  | cons x xs ih =>
    rw [removeAll, if_pos (hmem x (by simp))]
    refine ih (fun y hy => Finset.mem_erase.mpr ⟨?_, hmem y (List.mem_cons_of_mem _ hy)⟩)
      (List.nodup_cons.mp hnd).2
    intro hyx
    exact (List.nodup_cons.mp hnd).1 (hyx ▸ hy)

theorem removeAll_subset {u v : Finset Int} {l : List Int}
    (h : removeAll u l = some v) : ∀ x ∈ l, x ∈ u := by
  induction l generalizing u with
  | nil => intro x hx; simp at hx
  | cons x xs ih =>
    rw [removeAll] at h
    split at h
    · rename_i hx
      intro y hy
      rcases List.mem_cons.mp hy with rfl | hy
      · exact hx
      · exact Finset.mem_of_mem_erase (ih h y hy)
    · simp at h

theorem removeAll_eq_sdiff {u v : Finset Int} {l : List Int}
    (h : removeAll u l = some v) : v = u \ l.toFinset := by
  induction l generalizing u with
  | nil =>
    rw [removeAll] at h
    simp only [Option.some.injEq] at h
    simp [← h]
  | cons x xs ih =>
    rw [removeAll] at h
    split at h
    · rw [ih h]
      ext a
      simp only [Finset.mem_sdiff, Finset.mem_erase, List.toFinset_cons,
        Finset.mem_insert, List.mem_toFinset]
      tauto
    · simp at h

theorem insertAll_eq (u : Finset Int) (l : List Int) :
    insertAll u l = u ∪ l.toFinset := by
  induction l generalizing u with
  | nil => simp [insertAll]
  | cons x xs ih =>
    rw [insertAll, ih]
    ext a
    simp only [Finset.mem_union, Finset.mem_insert, List.toFinset_cons,
      List.mem_toFinset]
    tauto

theorem is_valid_accept {utxo : Finset Int} {out_df : List Output}
    {inputs : List Input} {outputs : List Output}
    (h : is_valid utxo out_df inputs outputs = some none) :
    scanInputs utxo out_df inputs = some none
    ∧ (inputs.map (fun i => i.out_id)).Nodup
    ∧ hasNegOutput outputs = false
    ∧ totInput out_df inputs = some (specTotInput out_df inputs)
    ∧ totOutput outputs ≤ specTotInput out_df inputs := by
  unfold is_valid at h
  split at h
  · simp at h
  · simp at h
  · rename_i hscan
    split at h
    · simp at h
    · rename_i ti hti
      split at h
      · simp at h
      · rename_i hnd
        rw [not_not] at hnd
        split at h
        · simp at h
        · rename_i hneg
          split at h
          · simp at h
          · rename_i hval
            rw [not_lt] at hval
            have hspec := totInput_eq_spec (scan_lookup_isSome hscan)
            rw [hspec] at hti
            simp only [Option.some.injEq] at hti
            subst hti
            exact ⟨hscan, hnd, Bool.not_eq_true _ ▸ (by simpa using hneg), hspec, hval⟩

/-! ## C2: value conservation -/

/-- C2.  Value conservation: a transfer transaction that `is_valid` accepts
has total referenced input value at least its total produced output value;
one whose input total is strictly below its output total is never accepted,
and — when rules 1–5 pass — is rejected with reason `NotEnoughValue`. -/
theorem value_conservation (utxo : Finset Int) (out_df : List Output)
    (inputs : List Input) (outputs : List Output) (ti : Int)
    (hti : totInput out_df inputs = some ti) :
    (is_valid utxo out_df inputs outputs = some none → totOutput outputs ≤ ti)
    ∧ (ti < totOutput outputs → is_valid utxo out_df inputs outputs ≠ some none)
    ∧ (scanInputs utxo out_df inputs = some none →
        (inputs.map (fun i => i.out_id)).Nodup →
        hasNegOutput outputs = false →
        ti < totOutput outputs →
        is_valid utxo out_df inputs outputs = some (some Reason.notEnoughValue)) := by
  refine ⟨?_, ?_, ?_⟩
  · intro h
    obtain ⟨_, _, _, hspec, hle⟩ := is_valid_accept h
    rw [hspec] at hti
    simp only [Option.some.injEq] at hti
    exact hti ▸ hle
  · intro hlt h
    obtain ⟨_, _, _, hspec, hle⟩ := is_valid_accept h
    rw [hspec] at hti
    simp only [Option.some.injEq] at hti
    subst hti
    exact absurd hlt (not_lt.mpr hle)
  · intro hscan hnd hneg hlt
    unfold is_valid
    rw [hscan, hti]
    simp [hnd, hneg, hlt]

/-- Witness for `value_conservation` at a concrete Scenario-D input:
a transfer spending input worth 1000 into an output worth 1200. -/
theorem value_conservation_witness :
    totInput [⟨10, 1, 9, 1000⟩, ⟨11, 2, 3, 1200⟩] [⟨2, 9, 10⟩] = some 1000
    ∧ ((is_valid {10} [⟨10, 1, 9, 1000⟩, ⟨11, 2, 3, 1200⟩] [⟨2, 9, 10⟩]
          [⟨11, 2, 3, 1200⟩] = some none →
        totOutput [⟨11, 2, 3, 1200⟩] ≤ 1000)
      ∧ ((1000 : Int) < totOutput [⟨11, 2, 3, 1200⟩] →
        is_valid {10} [⟨10, 1, 9, 1000⟩, ⟨11, 2, 3, 1200⟩] [⟨2, 9, 10⟩]
          [⟨11, 2, 3, 1200⟩] ≠ some none)
      ∧ (scanInputs {10} [⟨10, 1, 9, 1000⟩, ⟨11, 2, 3, 1200⟩] [⟨2, 9, 10⟩] = some none →
        (([⟨2, 9, 10⟩] : List Input).map (fun i => i.out_id)).Nodup →
        hasNegOutput [⟨11, 2, 3, 1200⟩] = false →
        (1000 : Int) < totOutput [⟨11, 2, 3, 1200⟩] →
        is_valid {10} [⟨10, 1, 9, 1000⟩, ⟨11, 2, 3, 1200⟩] [⟨2, 9, 10⟩]
          [⟨11, 2, 3, 1200⟩] = some (some Reason.notEnoughValue))) :=
  ⟨by decide,
   value_conservation {10} [⟨10, 1, 9, 1000⟩, ⟨11, 2, 3, 1200⟩] [⟨2, 9, 10⟩]
     [⟨11, 2, 3, 1200⟩] 1000 (by decide)⟩

/-! ## C5: internal double-spend shares the `notInUtxo` bucket -/

/-- C5.  A transfer transaction whose inputs repeat a `spentOutputId` is
rejected with the `notInUtxo` category even when every referenced id is a
member of the UTXO set and every per-input check (membership, ownership,
destination validity) passes. -/
theorem internal_double_spend_bucket (utxo : Finset Int) (out_df : List Output)
    (inputs : List Input) (outputs : List Output)
    (_hmem : ∀ i ∈ inputs, i.out_id ∈ utxo)
    (hscan : scanInputs utxo out_df inputs = some none)
    (hdup : ¬ (inputs.map (fun i => i.out_id)).Nodup) :
    is_valid utxo out_df inputs outputs = some (some Reason.notInUtxo) := by
  unfold is_valid
  rw [hscan]
  obtain ⟨ti, hti⟩ := Option.isSome_iff_exists.mp
    (totInput_isSome (scan_lookup_isSome hscan))
  rw [hti]
  simp [hdup]

/-- Witness for `internal_double_spend_bucket`: two inputs both spending
output 10, which is a member of the UTXO set. -/
theorem internal_double_spend_bucket_witness :
    scanInputs {10} RE.out_df [⟨2, 9, 10⟩, ⟨2, 9, 10⟩] = some none
    ∧ is_valid {10} RE.out_df [⟨2, 9, 10⟩, ⟨2, 9, 10⟩] [] =
        some (some Reason.notInUtxo) :=
  ⟨by decide,
   internal_double_spend_bucket {10} RE.out_df [⟨2, 9, 10⟩, ⟨2, 9, 10⟩] []
     (by decide) (by decide) (by decide)⟩

/-! ## C6: safety of the UTXO removals on accept -/

/-- C6.  When the classifier accepts a transfer transaction, the referenced
`spentOutputId`s are pairwise distinct and removing them one by one from the
UTXO set never reaches the error (absent-id) branch: each removed id is a
member of the set at the moment of its removal, and is removed exactly
once. -/
theorem utxo_removal_safe (utxo : Finset Int) (out_df : List Output)
    (inputs : List Input) (outputs : List Output)
    (h : is_valid utxo out_df inputs outputs = some none) :
    (inputs.map (fun i => i.out_id)).Nodup
    ∧ (removeAll utxo (inputs.map (fun i => i.out_id))).isSome := by
  obtain ⟨hscan, hnd, -, -, -⟩ := is_valid_accept h
  refine ⟨hnd, removeAll_isSome ?_ hnd⟩
  intro x hx
  obtain ⟨i, hi, rfl⟩ := List.mem_map.mp hx
  exact scan_mem_utxo hscan i hi

/-- Witness for `utxo_removal_safe`: the accepted transfer of the
scenario-E fixture. -/
theorem utxo_removal_safe_witness :
    is_valid {10} RE.out_df [⟨2, 9, 10⟩] [⟨11, 2, 3, 900⟩] = some none
    ∧ ((([⟨2, 9, 10⟩] : List Input).map (fun i => i.out_id)).Nodup
      ∧ (removeAll {10}
          (([⟨2, 9, 10⟩] : List Input).map (fun i => i.out_id))).isSome) :=
  ⟨by decide,
   utxo_removal_safe {10} RE.out_df [⟨2, 9, 10⟩] [⟨11, 2, 3, 900⟩] (by decide)⟩

/-! ## Counterexample and failing-input evaluations -/

/-- C3 counterexample.  Transaction 1's first input (in record order) has
signer key 7 ≠ 0, yet the coinbase pre-pass rejects it with
`InvalidCoinbase` and drops it (its second input has signer key 0 and its
output sum is 4,000,000,000 < `MINING_REWARD`), refuting the claim that no
transaction whose first input has a non-zero signer key is rejected by the
pre-pass. -/
theorem prepass_first_input_cex :
    ((R3.in_df.filter (fun i => i.tx_id == 1)).head?.map (fun i => i.sig_id))
        = some 7
    ∧ (prepass R3 initState).2.invalid_coinbase = [1]
    ∧ (prepass R3 initState).1.tx_df = []
    ∧ validate_data R3 initState =
        some (⟨[], [], []⟩, recordReject initState 1 Reason.invalidCoinbase) := by
  refine ⟨rfl, ?_, ?_, ?_⟩ <;> rfl

/-- C4 counterexample.  The coinbase transaction of `R4` has *no* outputs,
survives the pre-pass (the output grouping produces no group for it), is
treated as an accepted coinbase by the main pass (its row survives the whole
run), yet its output sum 0 is strictly below `MINING_REWARD`, refuting the
claim that every accepted coinbase transaction has output sum at least
5,000,000,000. -/
theorem coinbase_zero_output_cex :
    validate_data R4 initState = some (R4, initState)
    ∧ ((R4.in_df.filter (fun i => i.tx_id == 1)).head?.map
        (fun i => (i.sig_id, i.out_id))) = some (0, -1)
    ∧ R4.tx_df = [⟨1, 1⟩]
    ∧ txOutputSum R4.out_df 1 < MINING_REWARD := by
  refine ⟨?_, rfl, rfl, by decide⟩
  rfl

/-- C8 counterexample.  The input row of `R8` refers to transaction id 999,
which is absent from the transactions relation; the run rejects nothing and
the row survives in the cleaned relations, refuting the claim that the
cleaned relations contain no Input row whose transaction id refers to a
rejected *or absent* transaction. -/
theorem orphan_rows_cex :
    validate_data R8 initState = some (R8, initState)
    ∧ (validate_data R8 initState).map (fun p => p.1.in_df.map (fun i => i.tx_id))
        = some [999]
    ∧ R8.tx_df = []
    ∧ allRejects initState = [] := by
  refine ⟨?_, ?_, rfl, rfl⟩ <;> rfl

/-- C9 failing input.  The UTXO set and the six category lists are
class-level mutable objects of `DataValidator`; a second instance run in the
same Python process starts from the first run's lists (only `n_invalid`
restarts).  On identical input relations `R9`, the second run's report
differs from the first's: `not_in_utxo` is `[1, 1]` instead of `[1]`.  The
pass is therefore not independent of state left over from a previous run. -/
theorem rerun_state_carryover :
    validate_data R9 initState = some (⟨[], [], []⟩, s1C9)
    ∧ validate_data R9 (carriedState s1C9) = some (⟨[], [], []⟩, s2C9)
    ∧ s1C9.not_in_utxo = [1]
    ∧ s2C9.not_in_utxo = [1, 1]
    ∧ s2C9 ≠ s1C9 := by
  refine ⟨rfl, rfl, rfl, rfl, by decide⟩

/-! ## C7: fixed rule order with short-circuit -/

theorem scan_ne_none {utxo : Finset Int} {out_df : List Output}
    {inputs : List Input}
    (H : ∀ i ∈ inputs, (lookupOutput out_df i.out_id).isSome) :
    scanInputs utxo out_df inputs ≠ none := by
  induction inputs with
  | nil => simp [scanInputs]
  | cons j rest ih =>
    rw [scanInputs]
    split
    · simp
    · obtain ⟨o, ho⟩ := Option.isSome_iff_exists.mp (H j (by simp))
      simp only [ho]
      split
      · simp
      · split
        · simp
        · exact ih (fun i hi => H i (List.mem_cons_of_mem _ hi))

theorem firstReason_append_of_pass {l rest : List (Bool × Reason)}
    (h : ∀ c ∈ l, c.1 = true) :
    specFirstReason (l ++ rest) = specFirstReason rest := by
  induction l with
  | nil => rfl
  | cons c cs ih =>
    unfold specFirstReason
    rw [List.cons_append, List.find?_cons]
    have hc := h c (by simp)
    simp only [hc, Bool.not_true]
    exact ih (fun d hd => h d (List.mem_cons_of_mem _ hd))

theorem scan_none_checks_pass {utxo : Finset Int} {out_df : List Output}
    {inputs : List Input} (h : scanInputs utxo out_df inputs = some none) :
    ∀ c ∈ (inputs.map (specInputChecks utxo out_df)).flatten, c.1 = true := by
  induction inputs with
  | nil => intro c hc; simp at hc
  | cons j rest ih =>
    rw [scanInputs] at h
    split at h
    · simp at h
    · rename_i hmem
      rw [not_not] at hmem
      split at h
      · simp at h
      · rename_i o ho
        split at h
        · simp at h
        · rename_i hsig
          rw [not_not] at hsig
          split at h
          · simp at h
          · rename_i hdest
            intro c hc
            rw [List.map_cons, List.flatten_cons, List.mem_append] at hc
            rcases hc with hc | hc
            · simp only [specInputChecks, List.mem_cons, List.mem_singleton,
                List.not_mem_nil, or_false] at hc
              rcases hc with rfl | rfl | rfl
              · simpa using hmem
              · simp [ho, hsig]
              · simpa using hdest
            · exact ih h c hc

theorem scan_reason_firstFail {utxo : Finset Int} {out_df : List Output}
    {inputs : List Input} {r : Reason}
    (H : ∀ i ∈ inputs, (lookupOutput out_df i.out_id).isSome)
    (h : scanInputs utxo out_df inputs = some (some r)) (rest : List (Bool × Reason)) :
    specFirstReason ((inputs.map (specInputChecks utxo out_df)).flatten ++ rest)
      = some r := by
  induction inputs with
  | nil => simp [scanInputs] at h
  | cons j tl ih =>
    rw [scanInputs] at h
    rw [List.map_cons, List.flatten_cons, List.append_assoc]
    split at h
    · rename_i hmem
      simp only [Option.some.injEq] at h
      subst h
      simp [specInputChecks, specFirstReason, List.find?, hmem]
    · rename_i hmem
      rw [not_not] at hmem
      split at h
      · simp at h
      · rename_i o ho
        split at h
        · rename_i hsig
          simp only [Option.some.injEq] at h
          subst h
          simp [specInputChecks, specFirstReason, List.find?, hmem, ho, hsig]
        · rename_i hsig
          rw [not_not] at hsig
          split at h
          · rename_i hdest
            simp only [Option.some.injEq] at h
            subst h
            simp [specInputChecks, specFirstReason, List.find?, hmem, ho, hsig, hdest]
          · rename_i hdest
            have hpass : ∀ c ∈ specInputChecks utxo out_df j, c.1 = true := by
              intro c hc
              simp only [specInputChecks, List.mem_cons, List.mem_singleton,
                List.not_mem_nil, or_false] at hc
              rcases hc with rfl | rfl | rfl
              · simpa using hmem
              · simp [ho, hsig]
              · simpa using hdest
            rw [firstReason_append_of_pass hpass]
            exact ih (fun i hi => H i (List.mem_cons_of_mem _ hi)) h

/-- C7.  Fixed rule order and short-circuit: on any transfer transaction
whose referenced output rows all exist, `is_valid` returns exactly the
reason of the *first* failing check of the spec's flat, ordered check
sequence — rules 1–3 per input in record order, then rules 4, 5, 6 — and
accepts iff no check fails.  In particular rules 4–6 are reached only when
rules 1–3 pass on every input, and only one reason is ever recorded. -/
theorem classifier_rule_order (utxo : Finset Int) (out_df : List Output)
    (inputs : List Input) (outputs : List Output)
    (H : ∀ i ∈ inputs, (lookupOutput out_df i.out_id).isSome) :
    is_valid utxo out_df inputs outputs =
      some (specFirstReason (specRuleSeq utxo out_df inputs outputs)) := by
  unfold is_valid specRuleSeq
  cases hscan : scanInputs utxo out_df inputs with
  | none => exact absurd hscan (scan_ne_none H)
  | some o =>
    cases o with
    | some r => rw [scan_reason_firstFail H hscan]
    | none =>
      rw [totInput_eq_spec H,
        firstReason_append_of_pass (scan_none_checks_pass hscan)]
      by_cases hnd : (inputs.map (fun i => i.out_id)).Nodup
      · by_cases hneg : hasNegOutput outputs = true
        · simp [specFirstReason, List.find?, hnd, hneg]
        · by_cases hlt : specTotInput out_df inputs < totOutput outputs
          · simp [specFirstReason, List.find?, hnd, hneg, hlt, not_le.mpr hlt]
          · simp [specFirstReason, List.find?, hnd, hneg, hlt, not_lt.mp hlt]
      · simp [specFirstReason, List.find?, hnd]

/-- Witness for `classifier_rule_order`: the accepted transfer of the
scenario-E fixture, whose single referenced output row exists. -/
theorem classifier_rule_order_witness :
    (lookupOutput RE.out_df 10).isSome
    ∧ is_valid {10} RE.out_df [⟨2, 9, 10⟩] [⟨11, 2, 3, 900⟩] =
        some (specFirstReason
          (specRuleSeq {10} RE.out_df [⟨2, 9, 10⟩] [⟨11, 2, 3, 900⟩])) :=
  ⟨by decide,
   classifier_rule_order {10} RE.out_df [⟨2, 9, 10⟩] [⟨11, 2, 3, 900⟩]
     (by decide)⟩


/-! ## The coinbase pre-pass, characterized -/

theorem insertSorted_perm (x : Int) (l : List Int) :
    List.Perm (insertSorted x l) (x :: l) := by
  induction l with
  | nil => rfl
  | cons y ys ih =>
    rw [insertSorted]
    split
    · rfl
    · exact (List.Perm.cons y ih).trans (List.Perm.swap x y ys)

theorem sortInts_perm (l : List Int) : List.Perm (sortInts l) l := by
  induction l with
  | nil => rfl
  | cons x xs ih =>
    exact (insertSorted_perm x (sortInts xs)).trans (List.Perm.cons x ih)

theorem mem_sortInts {a : Int} {l : List Int} : a ∈ sortInts l ↔ a ∈ l :=
  (sortInts_perm l).mem_iff

theorem nodup_sortInts {l : List Int} (h : l.Nodup) : (sortInts l).Nodup :=
  ((sortInts_perm l).nodup_iff).mpr h

theorem prepassKeys_nodup (r : Relations) : (prepassKeys r).Nodup :=
  nodup_sortInts (List.nodup_dedup _)

theorem prepassRejected_nodup (r : Relations) : (prepassRejected r).Nodup :=
  (prepassKeys_nodup r).filter _

theorem mem_prepassKeys {r : Relations} {t : Int} :
    t ∈ prepassKeys r ↔
      (∃ i ∈ r.in_df, i.sig_id = 0 ∧ i.tx_id = t)
      ∧ (∃ o ∈ r.out_df, o.tx_id = t) := by
  unfold prepassKeys
  rw [mem_sortInts, List.mem_dedup]
  simp only [List.mem_map, List.mem_filter, List.elem_eq_mem, decide_eq_true_eq,
    beq_iff_eq]
  constructor
  · rintro ⟨o, ⟨ho, hc⟩, rfl⟩
    obtain ⟨i, ⟨hi, hsig⟩, hti⟩ := hc
    exact ⟨⟨i, hi, hsig, hti⟩, ⟨o, ho, rfl⟩⟩
  · rintro ⟨⟨i, hi, hsig, hti⟩, ⟨o, ho, hto⟩⟩
    exact ⟨o, ⟨ho, ⟨i, ⟨hi, hsig⟩, hti.trans hto.symm⟩⟩, hto⟩

theorem mem_prepassRejected {r : Relations} {t : Int} :
    t ∈ prepassRejected r ↔
      ((∃ i ∈ r.in_df, i.sig_id = 0 ∧ i.tx_id = t)
        ∧ (∃ o ∈ r.out_df, o.tx_id = t))
      ∧ txOutputSum r.out_df t < MINING_REWARD := by
  unfold prepassRejected
  rw [List.mem_filter, mem_prepassKeys]
  simp

theorem filter_ne_then_not_contains {α : Type} (f : α → Int) (t : Int)
    (K : List Int) (l : List α) :
    (l.filter (fun x => f x != t)).filter (fun x => !K.contains (f x))
      = l.filter (fun x => !(t :: K).contains (f x)) := by
  rw [List.filter_filter]
  refine List.filter_congr (fun x _ => ?_)
  by_cases h1 : f x ∈ K <;> by_cases h2 : f x = t <;>
    simp [List.contains_cons, bne, Bool.not_or, h1, h2]

theorem prepass_foldl_spec (out0 : List Output) :
    ∀ (keys : List Int) (r : Relations) (s : VState),
      (keys.foldl
        (fun rs t =>
          if txOutputSum out0 t < MINING_REWARD then
            (drop_transaction rs.1 t, recordReject rs.2 t Reason.invalidCoinbase)
          else rs) (r, s)).1.tx_df
        = r.tx_df.filter (fun x =>
            !(keys.filter (fun u => txOutputSum out0 u < MINING_REWARD)).contains x.id)
      ∧ (keys.foldl
        (fun rs t =>
          if txOutputSum out0 t < MINING_REWARD then
            (drop_transaction rs.1 t, recordReject rs.2 t Reason.invalidCoinbase)
          else rs) (r, s)).1.in_df
        = r.in_df.filter (fun i =>
            !(keys.filter (fun u => txOutputSum out0 u < MINING_REWARD)).contains i.tx_id)
      ∧ (keys.foldl
        (fun rs t =>
          if txOutputSum out0 t < MINING_REWARD then
            (drop_transaction rs.1 t, recordReject rs.2 t Reason.invalidCoinbase)
          else rs) (r, s)).1.out_df
        = r.out_df.filter (fun o =>
            !(keys.filter (fun u => txOutputSum out0 u < MINING_REWARD)).contains o.tx_id)
      ∧ (keys.foldl
        (fun rs t =>
          if txOutputSum out0 t < MINING_REWARD then
            (drop_transaction rs.1 t, recordReject rs.2 t Reason.invalidCoinbase)
          else rs) (r, s)).2
        = { s with
            n_invalid := s.n_invalid +
              (keys.filter (fun u => txOutputSum out0 u < MINING_REWARD)).length,
            invalid_coinbase := s.invalid_coinbase ++
              (keys.filter (fun u => txOutputSum out0 u < MINING_REWARD)) } := by
  intro keys
  induction keys with
  | nil => intro r s; refine ⟨?_, ?_, ?_, ?_⟩ <;> simp
  | cons t ts ih =>
    intro r s
    simp only [List.foldl_cons]
    by_cases hc : txOutputSum out0 t < MINING_REWARD
    · rw [if_pos hc]
      obtain ⟨ih1, ih2, ih3, ih4⟩ :=
        ih (drop_transaction r t) (recordReject s t Reason.invalidCoinbase)
      rw [List.filter_cons_of_pos (by simpa using hc)]
      refine ⟨?_, ?_, ?_, ?_⟩
      · rw [ih1]
        simp only [drop_transaction]
        exact filter_ne_then_not_contains (fun x => x.id) t _ r.tx_df
      · rw [ih2]
        simp only [drop_transaction]
        exact filter_ne_then_not_contains (fun i => i.tx_id) t _ r.in_df
      · rw [ih3]
        simp only [drop_transaction]
        exact filter_ne_then_not_contains (fun o => o.tx_id) t _ r.out_df
      · rw [ih4]
        simp only [recordReject, List.length_cons, List.append_assoc,
          List.singleton_append]
        congr 1
        omega
    · rw [if_neg hc]
      rw [List.filter_cons_of_neg (by simpa using hc)]
      exact ih r s

theorem prepass_spec (r : Relations) (s : VState) :
    (prepass r s).1.tx_df
        = r.tx_df.filter (fun x => !(prepassRejected r).contains x.id)
    ∧ (prepass r s).1.in_df
        = r.in_df.filter (fun i => !(prepassRejected r).contains i.tx_id)
    ∧ (prepass r s).1.out_df
        = r.out_df.filter (fun o => !(prepassRejected r).contains o.tx_id)
    ∧ (prepass r s).2
        = { s with
            n_invalid := s.n_invalid + (prepassRejected r).length,
            invalid_coinbase := s.invalid_coinbase ++ prepassRejected r } := by
  unfold prepass prepassRejected
  exact prepass_foldl_spec r.out_df (prepassKeys r) r s

/-- C3 amended.  The coinbase pre-pass rejects with `InvalidCoinbase`, and
excises from all three relations, exactly the transactions that have at
least one input — in *any* position, not only the first — with
`signerKeyId == 0`, at least one Output row, and summed output value
strictly below `MINING_REWARD` (5,000,000,000); the rejection set depends
only on the initial relations (independent of ledger order), and a
transaction with no signer-key-0 input, or with no output rows, is never
rejected by the pre-pass. -/
theorem prepass_coinbase_amended (r : Relations) (s : VState) (t : Int) :
    (t ∈ prepassRejected r ↔
      ((∃ i ∈ r.in_df, i.sig_id = 0 ∧ i.tx_id = t)
        ∧ (∃ o ∈ r.out_df, o.tx_id = t))
      ∧ txOutputSum r.out_df t < MINING_REWARD)
    ∧ (prepass r s).2.invalid_coinbase = s.invalid_coinbase ++ prepassRejected r
    ∧ (prepass r s).1.tx_df
        = r.tx_df.filter (fun x => !(prepassRejected r).contains x.id)
    ∧ (prepass r s).1.in_df
        = r.in_df.filter (fun i => !(prepassRejected r).contains i.tx_id)
    ∧ (prepass r s).1.out_df
        = r.out_df.filter (fun o => !(prepassRejected r).contains o.tx_id) := by
  obtain ⟨h1, h2, h3, h4⟩ := prepass_spec r s
  exact ⟨mem_prepassRejected, by rw [h4], h1, h2, h3⟩

/-! ## C8: rejection bookkeeping -/

theorem mem_allRejects_record {s : VState} {t x : Int} (rsn : Reason) :
    x ∈ allRejects (recordReject s t rsn) ↔ x ∈ allRejects s ∨ x = t := by
  cases rsn <;> simp [allRejects, recordReject] <;> tauto

theorem count_allRejects_record (s : VState) (t a : Int) (rsn : Reason) :
    (allRejects (recordReject s t rsn)).count a
      = (allRejects s).count a + if a = t then 1 else 0 := by
  rcases eq_or_ne a t with rfl | hat
  · cases rsn <;>
      simp [allRejects, recordReject, List.count_append] <;> omega
  · cases rsn <;>
      simp [allRejects, recordReject, List.count_append, List.count_singleton',
        beq_iff_eq, hat, Ne.symm hat]

theorem allRejects_record_nodup {s : VState} {t : Int} (rsn : Reason)
    (h : (allRejects s).Nodup) (ht : t ∉ allRejects s) :
    (allRejects (recordReject s t rsn)).Nodup := by
  rw [List.nodup_iff_count_le_one] at h ⊢
  intro a
  rw [count_allRejects_record]
  by_cases hat : a = t
  · rw [if_pos hat]
    have : (allRejects s).count a = 0 := by
      rw [hat]
      exact List.count_eq_zero_of_not_mem ht
    omega
  · rw [if_neg hat]
    have := h a
    omega

/-- Case shape of one main-pass step: the state either only changes its UTXO
set (coinbase or accepted transfer), or records one rejection reason and the
transaction is excised from the three relations. -/
theorem step_shape {r : Relations} {s : VState} {t : Int}
    {out : Relations × VState} (h : step (r, s) t = some out) :
    (∃ u : Finset Int, out = (r, { s with utxo := u }))
    ∨ (∃ reason : Reason,
        out = (drop_transaction r t, recordReject s t reason)) := by
  simp only [step] at h
  split at h
  · simp at h
  · split at h
    · simp only [Option.some.injEq] at h
      exact Or.inl ⟨_, h.symm⟩
    · split at h
      · simp at h
      · split at h
        · simp at h
        · simp only [Option.some.injEq] at h
          exact Or.inl ⟨_, h.symm⟩
      · simp only [Option.some.injEq] at h
        exact Or.inr ⟨_, h.symm⟩

theorem step_rejectInv {t : Int} {ts : List Int} {r : Relations} {s : VState}
    {out : Relations × VState} (hstep : step (r, s) t = some out)
    (hinv : RejectInv (t :: ts) r s) (hts : t ∉ ts) :
    RejectInv ts out.1 out.2 := by
  obtain ⟨hnd, htx, hin, hout, hpend⟩ := hinv
  rcases step_shape hstep with ⟨u, rfl⟩ | ⟨reason, rfl⟩
  · exact ⟨hnd, htx, hin, hout, fun u hu => hpend u (List.mem_cons_of_mem _ hu)⟩
  · have htA : t ∉ allRejects s := hpend t (List.mem_cons_self t ts)
    refine ⟨allRejects_record_nodup reason hnd htA, ?_, ?_, ?_, ?_⟩
    · intro x hx
      simp only [drop_transaction, List.mem_filter] at hx
      intro hmem
      rcases (mem_allRejects_record reason).mp hmem with h1 | h2
      · exact htx x hx.1 h1
      · exact absurd h2 (by simpa using hx.2)
    · intro i hi
      simp only [drop_transaction, List.mem_filter] at hi
      intro hmem
      rcases (mem_allRejects_record reason).mp hmem with h1 | h2
      · exact hin i hi.1 h1
      · exact absurd h2 (by simpa using hi.2)
    · intro o ho
      simp only [drop_transaction, List.mem_filter] at ho
      intro hmem
      rcases (mem_allRejects_record reason).mp hmem with h1 | h2
      · exact hout o ho.1 h1
      · exact absurd h2 (by simpa using ho.2)
    · intro u hu
      intro hmem
      rcases (mem_allRejects_record reason).mp hmem with h1 | h2
      · exact hpend u (List.mem_cons_of_mem _ hu) h1
      · exact hts (h2 ▸ hu)

theorem mainPass_rejectInv :
    ∀ (ts : List Int) (r : Relations) (s : VState) (out : Relations × VState),
      ts.Nodup → RejectInv ts r s → mainPass (r, s) ts = some out →
      RejectInv [] out.1 out.2 := by
  intro ts
  induction ts with
  | nil =>
    intro r s out _ hinv hrun
    rw [mainPass] at hrun
    simp only [Option.some.injEq] at hrun
    exact hrun ▸ hinv
  | cons t ts ih =>
    intro r s out hnd hinv hrun
    rw [mainPass] at hrun
    split at hrun
    · simp at hrun
    · rename_i rs2 hstep
      have hinv2 := step_rejectInv hstep hinv (List.nodup_cons.mp hnd).1
      exact ih rs2.1 rs2.2 out (List.nodup_cons.mp hnd).2 hinv2 hrun

/-- C8 amended.  On a fresh run over relations whose transaction ids are
distinct: every rejected transaction id is recorded in exactly one of the six
category lists and exactly once (the concatenation of the six lists has no
duplicate), no transaction surviving in the cleaned relations is recorded in
any list, and the cleaned relations contain no Transaction, Input or Output
row of a *rejected* transaction.  (The original claim's stronger "or
absent" clause — that no surviving row refers to a transaction absent from
the Transactions relation — is refuted by the counterexample
`orphan_rows_cex` and is dropped here; nothing is asserted about rows of
absent transactions.) -/
theorem rejection_exclusivity (r : Relations) (out : Relations × VState)
    (hnd : (r.tx_df.map (fun x => x.id)).Nodup)
    (hrun : validate_data r initState = some out) :
    (allRejects out.2).Nodup
    ∧ (∀ x ∈ out.1.tx_df, x.id ∉ allRejects out.2)
    ∧ (∀ i ∈ out.1.in_df, i.tx_id ∉ allRejects out.2)
    ∧ (∀ o ∈ out.1.out_df, o.tx_id ∉ allRejects out.2) := by
  unfold validate_data at hrun
  obtain ⟨h1, h2, h3, h4⟩ := prepass_spec r initState
  have hall : allRejects (prepass r initState).2 = prepassRejected r := by
    rw [h4]
    simp [allRejects, initState]
  have hrows_tx : ∀ x ∈ (prepass r initState).1.tx_df,
      x.id ∉ allRejects (prepass r initState).2 := by
    intro x hx
    rw [h1, List.mem_filter] at hx
    rw [hall]
    simpa using hx.2
  have hinv : RejectInv ((prepass r initState).1.tx_df.map (fun x => x.id))
      (prepass r initState).1 (prepass r initState).2 := by
    refine ⟨?_, hrows_tx, ?_, ?_, ?_⟩
    · rw [hall]
      exact prepassRejected_nodup r
    · intro i hi
      rw [h2, List.mem_filter] at hi
      rw [hall]
      simpa using hi.2
    · intro o ho
      rw [h3, List.mem_filter] at ho
      rw [hall]
      simpa using ho.2
    · intro t ht
      obtain ⟨x, hx, rfl⟩ := List.mem_map.mp ht
      exact hrows_tx x hx
  have hsnap : ((prepass r initState).1.tx_df.map (fun x => x.id)).Nodup := by
    refine hnd.sublist ?_
    rw [h1]
    exact (List.filter_sublist _).map _
  have := mainPass_rejectInv _ (prepass r initState).1 (prepass r initState).2
    out hsnap hinv hrun
  exact ⟨this.1, this.2.1, this.2.2.1, this.2.2.2.1⟩

/-- Witness for `rejection_exclusivity`: the scenario-E fixture, whose run
accepts both transactions and rejects nothing. -/
theorem rejection_exclusivity_witness :
    (RE.tx_df.map (fun x => x.id)).Nodup
    ∧ validate_data RE initState = some (RE, sE)
    ∧ (allRejects sE).Nodup
    ∧ (1 : Int) ∉ allRejects sE :=
  ⟨by decide, by decide,
   (rejection_exclusivity RE (RE, sE) (by decide) (by decide)).1,
   (rejection_exclusivity RE (RE, sE) (by decide) (by decide)).2.1
     ⟨1, 1⟩ (by decide)⟩

/-! ## C4: coinbase floor and exemption (amended) -/

/-- C4 amended.  Every coinbase transaction that survives the pre-pass *and
has at least one produced output* has output sum at least `MINING_REWARD`
(a coinbase transaction with no outputs survives with sum 0, see
`coinbase_zero_output_cex`); and in the main pass a transaction whose first
input carries the coinbase sentinel (`sig_id == 0`, `out_id == -1`) is not
run through `is_valid`: its produced output ids are unconditionally inserted
into the UTXO set and nothing else changes. -/
theorem coinbase_floor_amended :
    (∀ (r : Relations) (t : Int),
      (∃ i ∈ r.in_df, i.sig_id = 0 ∧ i.tx_id = t) →
      (∃ o ∈ r.out_df, o.tx_id = t) →
      t ∉ prepassRejected r →
      MINING_REWARD ≤ txOutputSum r.out_df t)
    ∧ (∀ (rs : Relations × VState) (t : Int) (first : Input),
      (rs.1.in_df.filter (fun i => i.tx_id == t)).head? = some first →
      first.sig_id = 0 → first.out_id = -1 →
      step rs t = some (rs.1,
        { rs.2 with utxo := (insertAll rs.2.utxo
            ((rs.1.out_df.filter (fun o => o.tx_id == t)).map (fun o => o.id))) })) := by
  constructor
  · intro r t hsig hout hsurv
    by_contra hlt
    exact hsurv (mem_prepassRejected.mpr ⟨⟨hsig, hout⟩, not_le.mp hlt⟩)
  · intro rs t first hfr hs0 ho1
    simp only [step, hfr]
    rw [if_pos (by simp [hs0, ho1])]

/-- Witness for `coinbase_floor_amended`: transaction 1 of the scenario-E
fixture, a surviving coinbase with one output worth exactly the reward. -/
theorem coinbase_floor_amended_witness :
    MINING_REWARD ≤ txOutputSum RE.out_df 1
    ∧ step (RE, initState) 1 = some (RE,
        { initState with utxo := (insertAll initState.utxo
            ((RE.out_df.filter (fun o => o.tx_id == 1)).map (fun o => o.id))) }) :=
  ⟨coinbase_floor_amended.1 RE 1 ⟨⟨1, 0, -1⟩, by decide, rfl, rfl⟩
      ⟨⟨10, 1, 9, 5000000000⟩, by decide, rfl⟩ (by decide),
   coinbase_floor_amended.2 (RE, initState) 1 ⟨1, 0, -1⟩ (by decide) rfl rfl⟩

/-! ## C10: totality of the output lookups during the replay -/

theorem lookup_isSome_of_covered {utxo : Finset Int} {out_df : List Output}
    {a : Int} (hcov : UtxoCovered utxo out_df) (ha : a ∈ utxo) :
    (lookupOutput out_df a).isSome := by
  obtain ⟨o, ho, hid⟩ := hcov a ha
  rw [lookupOutput, List.find?_isSome]
  exact ⟨o, ho, by simp [hid]⟩

theorem scan_ne_none_of_covered {utxo : Finset Int} {out_df : List Output}
    (hcov : UtxoCovered utxo out_df) :
    ∀ inputs : List Input, scanInputs utxo out_df inputs ≠ none := by
  intro inputs
  induction inputs with
  | nil => simp [scanInputs]
  | cons j rest ih =>
    rw [scanInputs]
    split
    · simp
    · rename_i hmem
      rw [not_not] at hmem
      have hsome := lookup_isSome_of_covered hcov hmem
      cases hlk : lookupOutput out_df j.out_id with
      | none => rw [hlk] at hsome; simp at hsome
      | some o =>
        simp only [hlk]
        split
        · simp
        · split
          · simp
          · exact ih

theorem is_valid_ne_none {utxo : Finset Int} {out_df : List Output}
    {inputs : List Input} {outputs : List Output}
    (hcov : UtxoCovered utxo out_df) :
    is_valid utxo out_df inputs outputs ≠ none := by
  unfold is_valid
  cases hscan : scanInputs utxo out_df inputs with
  | none => exact absurd hscan (scan_ne_none_of_covered hcov inputs)
  | some o =>
    cases o with
    | some r => simp
    | none =>
      have hlk : ∀ i ∈ inputs, (lookupOutput out_df i.out_id).isSome :=
        fun i hi => lookup_isSome_of_covered hcov (scan_mem_utxo hscan i hi)
      obtain ⟨ti, hti⟩ := Option.isSome_iff_exists.mp (totInput_isSome hlk)
      simp only [hti]
      split
      · simp
      · split
        · simp
        · split <;> simp

theorem lookupOutput_unique :
    ∀ {out_df : List Output} {a : Int} {o : Output},
      (out_df.map (fun x => x.id)).Nodup → o ∈ out_df → o.id = a →
      lookupOutput out_df a = some o := by
  intro out_df
  induction out_df with
  | nil => intro a o _ ho _; simp at ho
  | cons o2 rest ih =>
    intro a o hnd ho hid
    rw [List.map_cons, List.nodup_cons] at hnd
    rcases List.mem_cons.mp ho with rfl | ho
    · rw [lookupOutput, List.find?_cons_of_pos _ (by simp [hid])]
    · by_cases h2 : o2.id = a
      · exfalso
        refine hnd.1 ?_
        rw [h2, ← hid]
        exact List.mem_map.mpr ⟨o, ho, rfl⟩
      · rw [lookupOutput, List.find?_cons_of_neg _ (by simp [h2])]
        exact ih hnd.2 ho hid

theorem recordReject_utxo (s : VState) (t : Int) (rsn : Reason) :
    (recordReject s t rsn).utxo = s.utxo := by
  cases rsn <;> rfl

theorem step_preserves {t : Int} {ts : List Int} {r : Relations} {s : VState}
    (hnd : (t :: ts).Nodup)
    (hip : InputsPresent (t :: ts) r)
    (hcov : CoveredPending (t :: ts) r s) :
    ∃ out, step (r, s) t = some out
      ∧ InputsPresent ts out.1 ∧ CoveredPending ts out.1 out.2 := by
  have htts : t ∉ ts := (List.nodup_cons.mp hnd).1
  have hcovW : ∀ a ∈ s.utxo, ∃ o ∈ r.out_df, o.id = a ∧ o.tx_id ∉ ts := by
    intro a ha
    obtain ⟨o, ho, hid, hp⟩ := hcov a ha
    exact ⟨o, ho, hid, fun h => hp (List.mem_cons_of_mem _ h)⟩
  have hucov : UtxoCovered s.utxo r.out_df := by
    intro a ha
    obtain ⟨o, ho, hid, -⟩ := hcov a ha
    exact ⟨o, ho, hid⟩
  have hcovAdd : ∀ u₀ : Finset Int,
      (∀ a ∈ u₀, ∃ o ∈ r.out_df, o.id = a ∧ o.tx_id ∉ ts) →
      ∀ a ∈ insertAll u₀
        ((r.out_df.filter (fun o => o.tx_id == t)).map (fun o => o.id)),
        ∃ o ∈ r.out_df, o.id = a ∧ o.tx_id ∉ ts := by
    intro u₀ hu a ha
    rw [insertAll_eq, Finset.mem_union] at ha
    rcases ha with ha | ha
    · exact hu a ha
    · rw [List.mem_toFinset] at ha
      obtain ⟨o, ho, rfl⟩ := List.mem_map.mp ha
      rw [List.mem_filter] at ho
      refine ⟨o, ho.1, rfl, ?_⟩
      have hot : o.tx_id = t := by simpa using ho.2
      rw [hot]
      exact htts
  have hne := hip t (List.mem_cons_self t ts)
  obtain ⟨first, rest, hfr⟩ := List.exists_cons_of_ne_nil hne
  simp only [step, hfr, List.head?_cons]
  by_cases hcb : (first.sig_id == 0 && first.out_id == -1) = true
  · rw [if_pos hcb]
    refine ⟨_, rfl, fun u hu => hip u (List.mem_cons_of_mem _ hu), ?_⟩
    show CoveredPending ts r _
    intro a ha
    exact hcovAdd s.utxo hcovW a ha
  · rw [if_neg hcb]
    have hvne := @is_valid_ne_none s.utxo r.out_df (first :: rest)
      (r.out_df.filter (fun o => o.tx_id == t)) hucov
    cases hv : is_valid s.utxo r.out_df (first :: rest)
        (r.out_df.filter (fun o => o.tx_id == t)) with
    | none => exact absurd hv hvne
    | some v =>
      cases v with
      | none =>
        obtain ⟨hscan, hnodup, -, -, -⟩ := is_valid_accept hv
        have hmemu : ∀ x ∈ (first :: rest).map (fun i => i.out_id), x ∈ s.utxo := by
          intro x hx
          obtain ⟨i, hi, rfl⟩ := List.mem_map.mp hx
          exact scan_mem_utxo hscan i hi
        obtain ⟨u, hu⟩ := Option.isSome_iff_exists.mp
          (removeAll_isSome hmemu hnodup)
        simp only [hv, hu]
        refine ⟨_, rfl, fun w hw => hip w (List.mem_cons_of_mem _ hw), ?_⟩
        show CoveredPending ts r _
        intro a ha
        refine hcovAdd u ?_ a ha
        intro b hb
        have hbu : b ∈ s.utxo := by
          have hsd := removeAll_eq_sdiff hu
          rw [hsd] at hb
          exact (Finset.mem_sdiff.mp hb).1
        exact hcovW b hbu
      | some reason =>
        simp only [hv]
        refine ⟨_, rfl, ?_, ?_⟩
        · show InputsPresent ts (drop_transaction r t)
          intro w hw
          have hne2 := hip w (List.mem_cons_of_mem _ hw)
          have hwne : w ≠ t := fun h => htts (h ▸ hw)
          rcases hrow : r.in_df.filter (fun i => i.tx_id == w) with _ | ⟨i, irest⟩
          · exact absurd hrow hne2
          · have hi : i ∈ r.in_df.filter (fun i => i.tx_id == w) := by
              rw [hrow]
              exact List.mem_cons_self _ _
            rw [List.mem_filter] at hi
            have hwt : i.tx_id = w := by simpa using hi.2
            have hmem2 : i ∈ (drop_transaction r t).in_df.filter
                (fun j => j.tx_id == w) := by
              simp only [drop_transaction]
              rw [List.mem_filter, List.mem_filter]
              refine ⟨⟨hi.1, ?_⟩, hi.2⟩
              simp [hwt, hwne]
            exact List.ne_nil_of_mem hmem2
        · show CoveredPending ts (drop_transaction r t) (recordReject s t reason)
          intro a ha
          rw [recordReject_utxo] at ha
          obtain ⟨o, ho, hid, hp⟩ := hcov a ha
          have hot : o.tx_id ≠ t := fun h => hp (h ▸ List.mem_cons_self t ts)
          refine ⟨o, ?_, hid, fun h => hp (List.mem_cons_of_mem _ h)⟩
          simp only [drop_transaction]
          rw [List.mem_filter]
          exact ⟨ho, by simp [hot]⟩

theorem mainPass_total :
    ∀ (ts : List Int) (r : Relations) (s : VState),
      ts.Nodup → InputsPresent ts r → CoveredPending ts r s →
      (mainPass (r, s) ts).isSome := by
  intro ts
  induction ts with
  | nil => intro r s _ _ _; simp [mainPass]
  | cons t ts ih =>
    intro r s hnd hip hcov
    obtain ⟨out, hstep, hip2, hcov2⟩ := step_preserves hnd hip hcov
    rw [mainPass]
    simp only [hstep]
    exact ih out.1 out.2 (List.nodup_cons.mp hnd).2 hip2 hcov2

/-- C10.  Totality of the output lookups: (1) whenever every id of the UTXO
set is the id of a row of `out_df`, the classifier `is_valid` never raises
the empty-selection `IndexError` — in particular, once the membership rule
passes for an input, the `recipientKeyId`/`value` lookups of the referenced
output are defined; (2) when output ids are pairwise distinct the row found
is *the* unique row bearing that id; (3) along the main pass this coverage
is an invariant — a replay started with every UTXO id covered by a
non-pending transaction's output row, pending ids distinct, and every
pending transaction owning at least one input row, completes without any
uncaught exception. -/
theorem utxo_lookup_totality :
    (∀ (utxo : Finset Int) (out_df : List Output) (inputs : List Input)
        (outputs : List Output), UtxoCovered utxo out_df →
        is_valid utxo out_df inputs outputs ≠ none)
    ∧ (∀ (out_df : List Output) (a : Int) (o : Output),
        (out_df.map (fun x => x.id)).Nodup → o ∈ out_df → o.id = a →
        lookupOutput out_df a = some o)
    ∧ (∀ (ts : List Int) (r : Relations) (s : VState),
        ts.Nodup → InputsPresent ts r → CoveredPending ts r s →
        (mainPass (r, s) ts).isSome) :=
  ⟨fun _ _ _ _ h => is_valid_ne_none h,
   fun _ _ _ h1 h2 h3 => lookupOutput_unique h1 h2 h3,
   mainPass_total⟩

/-- Witness for `utxo_lookup_totality` on the scenario-E fixture. -/
theorem utxo_lookup_totality_witness :
    is_valid {10} RE.out_df [⟨2, 9, 10⟩] [⟨11, 2, 3, 900⟩] ≠ none
    ∧ lookupOutput RE.out_df 10 = some ⟨10, 1, 9, 5000000000⟩
    ∧ (mainPass (RE, initState) [1, 2]).isSome :=
  ⟨utxo_lookup_totality.1 {10} RE.out_df [⟨2, 9, 10⟩] [⟨11, 2, 3, 900⟩]
      (by unfold UtxoCovered; decide),
   utxo_lookup_totality.2.1 RE.out_df 10 ⟨10, 1, 9, 5000000000⟩ (by decide)
      (by decide) rfl,
   utxo_lookup_totality.2.2 [1, 2] RE initState (by decide)
      (by unfold InputsPresent; decide) (by unfold CoveredPending; decide)⟩

/-! ## C1: UTXO conservation via the instrumented replay -/

theorem output_row_unique {out_df : List Output} {o1 o2 : Output}
    (hnod : (out_df.map (fun x => x.id)).Nodup)
    (h1 : o1 ∈ out_df) (h2 : o2 ∈ out_df) (heq : o1.id = o2.id) : o1 = o2 := by
  have e1 := lookupOutput_unique hnod h1 rfl
  have e2 := lookupOutput_unique hnod h2 heq.symm
  rw [e1] at e2
  exact Option.some_injective _ e2

theorem sdiff_union_of_disj {I R A : Finset Int}
    (hAR : ∀ a ∈ A, a ∉ R) : (I \ R) ∪ A = (I ∪ A) \ R := by
  ext a
  have := hAR a
  simp only [Finset.mem_union, Finset.mem_sdiff]
  tauto

theorem sdiff_sdiff_union_of_disj {I R D A : Finset Int}
    (hAR : ∀ a ∈ A, a ∉ R) (hAD : ∀ a ∈ A, a ∉ D) :
    ((I \ R) \ D) ∪ A = (I ∪ A) \ (R ∪ D) := by
  ext a
  have := hAR a
  have := hAD a
  simp only [Finset.mem_union, Finset.mem_sdiff]
  tauto

theorem fresh_add {r : Relations} {g : Ghost} {ts : List Int} {t : Int}
    (hwit : ∀ a ∈ g.inserted, ∃ o ∈ r.out_df, o.id = a ∧ o.tx_id ∈ g.accepted)
    (hacc : ∀ u ∈ g.accepted, u ∉ t :: ts)
    (hnod : (r.out_df.map (fun o => o.id)).Nodup) :
    ∀ a ∈ ((r.out_df.filter (fun o => o.tx_id == t)).map
        (fun o => o.id)).toFinset, a ∉ g.inserted := by
  intro a ha hin
  rw [List.mem_toFinset] at ha
  obtain ⟨onew, honew, rfl⟩ := List.mem_map.mp ha
  rw [List.mem_filter] at honew
  obtain ⟨ow, how, hid, htx⟩ := hwit _ hin
  have hone : onew.tx_id = t := by simpa using honew.2
  have heqr : ow = onew := output_row_unique hnod how honew.1 hid
  have : ow.tx_id ≠ t := fun h => hacc _ htx (h ▸ List.mem_cons_self t ts)
  exact this (heqr ▸ hone)

theorem gstep_inv {t : Int} {ts : List Int} {r : Relations} {s : VState}
    {g : Ghost} {r' : Relations} {s' : VState} {g' : Ghost}
    (hnd : (t :: ts).Nodup)
    (hinv : GhostInv (t :: ts) r s g)
    (hstep : gstep (r, s, g) t = some (r', s', g')) :
    GhostInv ts r' s' g' := by
  obtain ⟨hux, hsub, hwit, hacc, hnod⟩ := hinv
  have htts : t ∉ ts := (List.nodup_cons.mp hnd).1
  have hfreshI : ∀ a ∈ ((r.out_df.filter (fun o => o.tx_id == t)).map
      (fun o => o.id)).toFinset, a ∉ g.inserted := fresh_add hwit hacc hnod
  have hwitNew : ∀ a ∈ g.inserted ∪ ((r.out_df.filter (fun o => o.tx_id == t)).map
      (fun o => o.id)).toFinset,
      ∃ o ∈ r.out_df, o.id = a ∧ o.tx_id ∈ g.accepted ++ [t] := by
    intro a ha
    rcases Finset.mem_union.mp ha with ha | ha
    · obtain ⟨o, ho, hid, htx⟩ := hwit a ha
      exact ⟨o, ho, hid, List.mem_append_left _ htx⟩
    · rw [List.mem_toFinset] at ha
      obtain ⟨o, ho, rfl⟩ := List.mem_map.mp ha
      rw [List.mem_filter] at ho
      refine ⟨o, ho.1, rfl, ?_⟩
      have hot : o.tx_id = t := by simpa using ho.2
      rw [hot]
      exact List.mem_append_right _ (List.mem_singleton.mpr rfl)
  have haccNew : ∀ u ∈ g.accepted ++ [t], u ∉ ts := by
    intro u hu
    rcases List.mem_append.mp hu with hu | hu
    · exact fun h => hacc u hu (List.mem_cons_of_mem _ h)
    · rw [List.mem_singleton] at hu
      exact hu ▸ htts
  simp only [gstep] at hstep
  split at hstep
  · simp at hstep
  · split at hstep
    · -- coinbase branch
      simp only [Option.some.injEq, Prod.mk.injEq] at hstep
      obtain ⟨h1, h2, h3⟩ := hstep
      subst h1
      subst h2
      subst h3
      refine ⟨?_, ?_, hwitNew, haccNew, hnod⟩
      · show insertAll s.utxo ((r.out_df.filter (fun o => o.tx_id == t)).map
          (fun o => o.id)) = (g.inserted ∪ _) \ g.removed
        rw [insertAll_eq, hux]
        exact sdiff_union_of_disj (fun a hA hR => hfreshI a hA (hsub hR))
      · exact fun x hx => Finset.mem_union_left _ (hsub hx)
    · -- transfer branch
      split at hstep
      · simp at hstep
      · -- accepted
        split at hstep
        · simp at hstep
        · rename_i u hu
          simp only [Option.some.injEq, Prod.mk.injEq] at hstep
          obtain ⟨h1, h2, h3⟩ := hstep
          subst h1
          subst h2
          subst h3
          have hdel := removeAll_subset hu
          have hdelI : ∀ x ∈ ((r.in_df.filter (fun i => i.tx_id == t)).map
              (fun i => i.out_id)).toFinset, x ∈ g.inserted := by
            intro x hx
            rw [List.mem_toFinset] at hx
            have := hdel x hx
            rw [hux] at this
            exact (Finset.mem_sdiff.mp this).1
          refine ⟨?_, ?_, hwitNew, haccNew, hnod⟩
          · show insertAll u ((r.out_df.filter (fun o => o.tx_id == t)).map
              (fun o => o.id)) = (g.inserted ∪ _) \ (g.removed ∪ _)
            rw [insertAll_eq, removeAll_eq_sdiff hu, hux]
            refine sdiff_sdiff_union_of_disj
              (fun a hA hR => hfreshI a hA (hsub hR))
              (fun a hA hD => hfreshI a hA (hdelI a hD))
          · intro x hx
            rcases Finset.mem_union.mp hx with hx | hx
            · exact Finset.mem_union_left _ (hsub hx)
            · exact Finset.mem_union_left _ (hdelI x hx)
      · -- rejected
        rename_i reason hv
        simp only [Option.some.injEq, Prod.mk.injEq] at hstep
        obtain ⟨h1, h2, h3⟩ := hstep
        subst h1
        subst h2
        subst h3
        refine ⟨?_, hsub, ?_, fun u hu h => hacc u hu (List.mem_cons_of_mem _ h), ?_⟩
        · show (recordReject s t reason).utxo = g.inserted \ g.removed
          rw [recordReject_utxo]
          exact hux
        · intro a ha
          obtain ⟨o, ho, hid, htx⟩ := hwit a ha
          have hot : o.tx_id ≠ t := fun h => hacc _ htx (h ▸ List.mem_cons_self t ts)
          refine ⟨o, ?_, hid, htx⟩
          show o ∈ (drop_transaction r t).out_df
          simp only [drop_transaction]
          rw [List.mem_filter]
          exact ⟨ho, by simp [hot]⟩
        · show (((drop_transaction r t).out_df).map (fun o => o.id)).Nodup
          simp only [drop_transaction]
          exact hnod.sublist ((List.filter_sublist _).map _)

theorem gstep_proj (r : Relations) (s : VState) (g : Ghost) (t : Int) :
    (gstep (r, s, g) t).map (fun p => (p.1, p.2.1)) = step (r, s) t := by
  cases hh : (r.in_df.filter (fun i => i.tx_id == t)).head? with
  | none => simp [gstep, step, hh]
  | some first =>
    simp only [gstep, step, hh]
    by_cases hcb : (first.sig_id == 0 && first.out_id == -1) = true
    · rw [if_pos hcb, if_pos hcb]
      rfl
    · rw [if_neg hcb, if_neg hcb]
      cases hv : is_valid s.utxo r.out_df (r.in_df.filter (fun i => i.tx_id == t))
          (r.out_df.filter (fun o => o.tx_id == t)) with
      | none => simp [hv]
      | some v =>
        cases v with
        | none =>
          cases hu : removeAll s.utxo ((r.in_df.filter (fun i => i.tx_id == t)).map
              (fun i => i.out_id)) with
          | none => simp [hv, hu]
          | some u => simp [hv, hu]
        | some reason => simp [hv]

theorem gmainPass_inv :
    ∀ (ts : List Int) (r : Relations) (s : VState) (g : Ghost)
      (out : Relations × VState × Ghost),
      ts.Nodup → GhostInv ts r s g → gmainPass (r, s, g) ts = some out →
      GhostInv [] out.1 out.2.1 out.2.2 := by
  intro ts
  induction ts with
  | nil =>
    intro r s g out _ hinv hrun
    rw [gmainPass] at hrun
    simp only [Option.some.injEq] at hrun
    exact hrun ▸ hinv
  | cons t ts ih =>
    intro r s g out hnd hinv hrun
    rw [gmainPass] at hrun
    split at hrun
    · simp at hrun
    · rename_i rsg2 hstep
      have hinv2 := gstep_inv hnd hinv
        (show gstep (r, s, g) t = some (rsg2.1, rsg2.2.1, rsg2.2.2) from hstep)
      exact ih rsg2.1 rsg2.2.1 rsg2.2.2 out (List.nodup_cons.mp hnd).2 hinv2 hrun

theorem gmainPass_proj :
    ∀ (ts : List Int) (r : Relations) (s : VState) (g : Ghost),
      (gmainPass (r, s, g) ts).map (fun p => (p.1, p.2.1)) = mainPass (r, s) ts := by
  intro ts
  induction ts with
  | nil => intro r s g; rfl
  | cons t ts ih =>
    intro r s g
    rw [gmainPass, mainPass]
    have hp := gstep_proj r s g t
    cases hg : gstep (r, s, g) t with
    | none =>
      rw [hg] at hp
      rw [← hp]
      rfl
    | some rsg2 =>
      rw [hg] at hp
      rw [← hp]
      exact ih rsg2.1 rsg2.2.1 rsg2.2.2

theorem ghost_validate_inv (r : Relations) (out : Relations × VState × Ghost)
    (hndtx : (r.tx_df.map (fun x => x.id)).Nodup)
    (hndout : (r.out_df.map (fun o => o.id)).Nodup)
    (hrun : ghost_validate r = some out) :
    out.2.1.utxo = out.2.2.inserted \ out.2.2.removed
    ∧ ∀ a ∈ out.2.1.utxo, ∃ o ∈ out.1.out_df,
        o.id = a ∧ o.tx_id ∈ out.2.2.accepted := by
  unfold ghost_validate at hrun
  obtain ⟨h1, h2, h3, h4⟩ := prepass_spec r initState
  have hsnap : ((prepass r initState).1.tx_df.map (fun x => x.id)).Nodup := by
    rw [h1]
    exact hndtx.sublist ((List.filter_sublist _).map _)
  have hinv0 : GhostInv ((prepass r initState).1.tx_df.map (fun x => x.id))
      (prepass r initState).1 (prepass r initState).2 ⟨∅, ∅, []⟩ := by
    refine ⟨?_, ?_, ?_, ?_, ?_⟩
    · show (prepass r initState).2.utxo = ∅ \ ∅
      rw [h4]
      simp [initState]
    · exact Finset.Subset.refl ∅
    · intro a ha
      exact absurd ha (Finset.not_mem_empty a)
    · intro u hu
      exact absurd hu (List.not_mem_nil u)
    · rw [h3]
      exact hndout.sublist ((List.filter_sublist _).map _)
  have hfin := gmainPass_inv _ _ _ _ out hsnap hinv0 hrun
  refine ⟨hfin.1, fun a ha => hfin.2.2.1 a ?_⟩
  rw [hfin.1] at ha
  exact (Finset.mem_sdiff.mp ha).1

/-- C1.  UTXO invariant and conservation, through the ghost-instrumented
replay (which projects onto `validate_data` exactly): (1) the replay
invariant — the UTXO set equals the set of ids inserted so far minus the
ids removed so far, every inserted id is the id of a surviving output row of
a transaction accepted so far, and accepted transactions are never pending —
is preserved by every instrumented step; (2) dropping the ghost fields,
`ghost_validate` computes exactly the fresh run of `validate_data`; (3)
consequently, a completed fresh run over relations with distinct transaction
ids and distinct output ids ends with `UTXOSet = inserted − removed`, and
every id of the final UTXO set is the id of an output row of an accepted
transaction in the cleaned relations. -/
theorem utxo_conservation :
    (∀ (t : Int) (ts : List Int) (r : Relations) (s : VState) (g : Ghost)
        (out : Relations × VState × Ghost),
        (t :: ts).Nodup → GhostInv (t :: ts) r s g →
        gstep (r, s, g) t = some out → GhostInv ts out.1 out.2.1 out.2.2)
    ∧ (∀ r : Relations,
        (ghost_validate r).map (fun p => (p.1, p.2.1)) = validate_data r initState)
    ∧ (∀ (r : Relations) (out : Relations × VState × Ghost),
        (r.tx_df.map (fun x => x.id)).Nodup →
        (r.out_df.map (fun o => o.id)).Nodup →
        ghost_validate r = some out →
        out.2.1.utxo = out.2.2.inserted \ out.2.2.removed
        ∧ ∀ a ∈ out.2.1.utxo, ∃ o ∈ out.1.out_df,
            o.id = a ∧ o.tx_id ∈ out.2.2.accepted) := by
  refine ⟨?_, ?_, ghost_validate_inv⟩
  · intro t ts r s g out hnd hinv hstep
    exact gstep_inv hnd hinv
      (show gstep (r, s, g) t = some (out.1, out.2.1, out.2.2) from hstep)
  · intro r
    unfold ghost_validate validate_data
    exact gmainPass_proj _ _ _ _

/-- Witness for `utxo_conservation` on the scenario-E fixture: the run
inserts outputs 10 and 11, removes 10, accepts transactions 1 and 2, and the
final UTXO set is exactly the difference. -/
theorem utxo_conservation_witness :
    ghost_validate RE = some (RE, sE, ⟨{10, 11}, {10}, [1, 2]⟩)
    ∧ sE.utxo = ({10, 11} : Finset Int) \ {10}
    ∧ (ghost_validate RE).map (fun p => (p.1, p.2.1)) = validate_data RE initState :=
  ⟨by decide,
   (utxo_conservation.2.2 RE (RE, sE, ⟨{10, 11}, {10}, [1, 2]⟩) (by decide)
      (by decide) (by decide)).1,
   utxo_conservation.2.1 RE⟩
